import Mathlib

/-!
Verification of the chunking / retrieval pipeline of the
`vector-knowledge-store` repository, as a shallow embedding in Lean 4.

Conventions of the embedding:
* Python strings are modelled as `List Char`; Python slices `text[a:b]`
  become `(text.drop a).take (b - a)` and `text[a:]` becomes `text.drop a`.
* Python non-negative integers are modelled as `Nat`.  In the parameter
  ranges exercised by the theorems below (`chunk_size > overlap`) every
  intermediate cursor value in the chunking loop is non-negative, so `Nat`
  subtraction agrees with Python integer subtraction there.
* Similarity scores (floats in the source, used only in `≥` comparisons,
  never in arithmetic) are modelled as rationals `ℚ`.
* The `while` loop of `TextProcessor._chunk_text` is modelled with explicit
  fuel; `none` means the fuel was exhausted (the Python loop would still be
  running).  The fuel `length + 1` is proved sufficient whenever
  `overlap < chunk_size`.
* Network services (embedding service, completion service) are modelled as
  function parameters; where a claim is about *whether* a service is
  invoked, the embedding returns the invocation count alongside the result.
-/

set_option maxRecDepth 10000

namespace VKS

/-- The character class of Python's regex `\s` (ASCII part), used by
`re.sub(r'\s{2,}', ' ', text)` in `TextProcessor._chunk_text`. -/
def pyIsSpace (c : Char) : Bool :=
  c = ' ' || c = '\t' || c = '\n' || c = '\r' || c = '\x0b' || c = '\x0c'

/-- Emit a completed maximal run of class characters: a run of length at
least `n` is replaced by `repl`, a shorter (possibly empty) run is kept. -/
def flushRun (n : Nat) (repl run : List Char) : List Char :=
  if run.isEmpty then [] else if n ≤ run.length then repl else run

/-- Scanner for `collapseRuns`: `run` is the maximal run of class characters
accumulated so far (in input order). -/
def collapseRunsAux (p : Char → Bool) (n : Nat) (repl run : List Char) :
    List Char → List Char
  | [] => flushRun n repl run
  | c :: cs =>
    if p c then collapseRunsAux p n repl (run ++ [c]) cs
    else flushRun n repl run ++ c :: collapseRunsAux p n repl [] cs

/-- `re.sub` of the regex `cls{n,}` (a character class repeated at least `n`
times, matched greedily) with replacement `repl`: every maximal run of
characters satisfying `p` whose length is at least `n` is replaced by
`repl`; shorter runs are kept. -/
def collapseRuns (p : Char → Bool) (n : Nat) (repl : List Char) (text : List Char) :
    List Char :=
  collapseRunsAux p n repl [] text

/-- The whitespace normalization at the top of `TextProcessor._chunk_text`:
`text = re.sub(r'\n{3,}', '\n\n', text)` followed by
`text = re.sub(r'\s{2,}', ' ', text)`. -/
def normalizeText (text : List Char) : List Char :=
  collapseRuns pyIsSpace 2 [' ']
    (collapseRuns (fun c => c = '\n') 3 ['\n', '\n'] text)

/-- The slice `text[position : min(position + n, len(text))]`, the bounded
lookahead window used by both boundary searches. -/
def sliceWindow (text : List Char) (position n : Nat) : List Char :=
  (text.drop position).take (min (position + n) text.length - position)

/-- End offset (relative to `slice`) of the first occurrence of the
single-character pattern `c` in `slice`, as `re.finditer` computes it:
`matches[0].end() = index + 1`. -/
def firstMatchEndChar (slice : List Char) (c : Char) : Option Nat :=
  if slice.findIdx (fun x => x = c) < slice.length then
    some (slice.findIdx (fun x => x = c) + 1)
  else none

/-- End offset (relative to `slice`) of the first occurrence of the
pattern `\n\n` in `slice` (`matches[0].end() = index + 2`). -/
def firstMatchEndNN : List Char → Option Nat
  | c1 :: c2 :: rest =>
    if c1 = '\n' && c2 = '\n' then some 2
    else
      match firstMatchEndNN (c2 :: rest) with
      | some e => some (e + 1)
      | none => none
  | _ => none

/-- `TextProcessor._find_sentence_end(text, position)`: search the window
`text[position : min(position+100, len(text))]` for the patterns
`\.`, `\!`, `\?`, `\n\n` in that order; return `position + matches[0].end()`
for the first pattern that matches, else `position`. -/
def find_sentence_end (text : List Char) (position : Nat) : Nat :=
  match firstMatchEndChar (sliceWindow text position 100) '.' with
  | some e => position + e
  | none =>
    match firstMatchEndChar (sliceWindow text position 100) '!' with
    | some e => position + e
    | none =>
      match firstMatchEndChar (sliceWindow text position 100) '?' with
      | some e => position + e
      | none =>
        match firstMatchEndNN (sliceWindow text position 100) with
        | some e => position + e
        | none => position

/-- `TextProcessor._find_word_end(text, position)`: if `position` is past the
end return `len(text)`; else `text.find(' ', position, min(position+50,
len(text)))`, returning one past the space if found and `position`
otherwise. -/
def find_word_end (text : List Char) (position : Nat) : Nat :=
  if text.length ≤ position then text.length
  else if (sliceWindow text position 50).findIdx (fun x => x = ' ')
      < (sliceWindow text position 50).length then
    position + (sliceWindow text position 50).findIdx (fun x => x = ' ') + 1
  else position

/-- The boundary chosen by one non-final iteration of the loop in
`TextProcessor._chunk_text`: `sentence_end` if `sentence_end > start`,
otherwise the word-boundary fallback.  Both branches of the Python `if`
then emit `text[start:boundary]` and set `start = boundary - CHUNK_OVERLAP`. -/
def chunkBoundary (text : List Char) (start e : Nat) : Nat :=
  if start < find_sentence_end text e then find_sentence_end text e
  else find_word_end text e

/-- The `while start < len(text)` loop of `TextProcessor._chunk_text`, with
explicit fuel; `none` means the fuel ran out before the loop exited. -/
def chunkLoop (cs ov : Nat) (text : List Char) : Nat → Nat → Option (List (List Char))
  | 0, _ => none
  | fuel + 1, start =>
    if start < text.length then
      if text.length ≤ start + cs then
        some [text.drop start]
      else
        (chunkLoop cs ov text fuel (chunkBoundary text start (start + cs) - ov)).map
          (fun rest =>
            ((text.drop start).take (chunkBoundary text start (start + cs) - start)) :: rest)
    else
      some []

/-- `TextProcessor._chunk_text` with `CHUNK_SIZE`/`CHUNK_OVERLAP` generalized
to parameters `cs`/`ov`: empty input short-circuits to `[]`; otherwise the
text is whitespace-normalized and the chunking loop runs from `start = 0`. -/
def chunkTextWith (cs ov : Nat) (text : List Char) : Option (List (List Char)) :=
  if text.isEmpty then some []
  else
    chunkLoop cs ov (normalizeText text) ((normalizeText text).length + 1) 0

/-- `config/settings.py`: `CHUNK_SIZE = 1000`. -/
def CHUNK_SIZE : Nat := 1000

/-- `config/settings.py`: `CHUNK_OVERLAP = 200`. -/
def CHUNK_OVERLAP : Nat := 200

/-- `TextProcessor._chunk_text` at the configured constants. -/
def chunk_text (text : List Char) : Option (List (List Char)) :=
  chunkTextWith CHUNK_SIZE CHUNK_OVERLAP text

/-- Concatenation of the chunks with each chunk after the first stripped of
its leading `ov`-character overlap region (the region shared with the
previous chunk). -/
def reconstruct (ov : Nat) : List (List Char) → List Char
  | [] => []
  | c :: rest => c ++ (rest.map (List.drop ov)).flatten

/-- `config/settings.py`: `SIMILARITY_THRESHOLD = 0.7`.  Scores are floats
in the source but are only ever compared (never computed with), so they are
modelled as rationals. -/
def SIMILARITY_THRESHOLD : ℚ := 7 / 10

/-- `config/settings.py`: `TOP_K_RESULTS = 5`. -/
def TOP_K_RESULTS : Nat := 5

/-- One ranked hit as produced by the external index backend for
`AzureSearchService.vector_search` (fields read from each `result`). -/
structure RawResult where
  rid : String
  text : String
  source : String
  path : String
  document_type : String
  score : ℚ
deriving DecidableEq

/-- The dictionary appended to `search_results` for a surviving hit. -/
structure SearchResult where
  rid : String
  text : String
  source : String
  path : String
  document_type : String
  score : ℚ
deriving DecidableEq

def toSearchResult (r : RawResult) : SearchResult :=
  { rid := r.rid, text := r.text, source := r.source, path := r.path,
    document_type := r.document_type, score := r.score }

/-- The result loop of `AzureSearchService.vector_search`: iterate over the
ranked stream returned by the index, appending every hit whose
`@search.score` is at least `SIMILARITY_THRESHOLD`. -/
def vector_search (results : List RawResult) : List SearchResult :=
  results.foldl
    (fun acc r =>
      if SIMILARITY_THRESHOLD ≤ r.score then acc ++ [toSearchResult r] else acc)
    []

/-- One entry of the deduplicated `sources` list built by
`AzureOpenAIService.generate_answer`. -/
structure SourceRef where
  source : String
  path : String
deriving DecidableEq

/-- The `{"answer": ..., "sources": ...}` dictionary returned by both
`generate_answer` and `process_query`. -/
structure Answer where
  answer : String
  sources : List SourceRef
deriving DecidableEq

/-- One chat message of the two-message prompt. -/
structure ChatMessage where
  role : String
  content : String

/-- `config/settings.py`: `SYSTEM_PROMPT`. -/
def SYSTEM_PROMPT : String :=
  "You are a helpful assistant that answers questions based on the provided context.\nOnly use information from the context to answer the question.\nIf you don\x27t know the answer, say \"I don\x27t have enough information to answer this question.\" \nKeep your answers concise and to the point."

/-- The fixed fallback answer returned by `QueryProcessor.process_query`
when the search produced no results. -/
def FALLBACK_ANSWER : String :=
  "I couldn\x27t find any relevant information in your knowledge base to answer this question."

/-- The source-deduplication loop at the end of
`AzureOpenAIService.generate_answer`: append `{source, path}` for each
context item whose `source` has not been appended yet. -/
def dedupSources (context : List SearchResult) : List SourceRef :=
  context.foldl
    (fun sources item =>
      if item.source ∈ sources.map SourceRef.source then sources
      else sources ++ [⟨item.source, item.path⟩])
    []

/-- `AzureOpenAIService.generate_answer`, with the completion service
(`client.chat.completions.create`, temperature 0, max_tokens 500) modelled
as the function `complete`.  The second component counts how many times the
completion service is invoked. -/
def generate_answer (complete : List ChatMessage → String) (query : String)
    (context : List SearchResult) : Answer × Nat :=
  ({ answer := complete
        [⟨"system", SYSTEM_PROMPT⟩,
         ⟨"user", "Question: " ++ query ++ "\n\nContext:\n" ++
            String.intercalate "\n\n"
              (context.map (fun item => "Source: " ++ item.source ++ "\n" ++ item.text))⟩],
     sources := dedupSources context }, 1)

/-- `QueryProcessor.process_query`, given the results of
`vector_store.search` (query embedding and k-NN call already performed by
the collaborators).  The second component counts completion-service
invocations. -/
def process_query (complete : List ChatMessage → String) (query : String)
    (search_results : List SearchResult) : Answer × Nat :=
  if search_results.isEmpty then
    ({ answer := FALLBACK_ANSWER, sources := [] }, 0)
  else
    generate_answer complete query search_results

/-- Fuel-indexed form of `specFirstSeenDedup` (fuel makes the recursion
structural so that concrete instances reduce). -/
def specFirstSeenDedupFuel : Nat → List String → List String
  | 0, _ => []
  | _ + 1, [] => []
  | fuel + 1, a :: l => a :: specFirstSeenDedupFuel fuel (l.filter (fun b => b ≠ a))

/-- Modelled from the spec: `Answer.sources contains each distinct
source_name at most once, in first-seen order` — the sequence of first
occurrences of the distinct elements of `l`, in order of first appearance.
Stated independently of the implementation for the refinement claim C5. -/
def specFirstSeenDedup (l : List String) : List String :=
  specFirstSeenDedupFuel l.length l

/-- Fuel-indexed form of the batching loop of
`AzureOpenAIService.generate_embeddings` / `EmbeddingGenerator._get_embeddings`
(`for i in range(0, len(texts), batch_size)` with `batch_size = 16`),
with the embedding service modelled as the function `embed`. -/
def get_embeddings_fuel (embed : List String → List (List ℚ)) :
    Nat → List String → List (List ℚ)
  | 0, _ => []
  | _ + 1, [] => []
  | fuel + 1, t :: ts =>
    embed ((t :: ts).take 16) ++ get_embeddings_fuel embed fuel ((t :: ts).drop 16)

/-- `EmbeddingGenerator._get_embeddings` (same loop as
`AzureOpenAIService.generate_embeddings`): one embedding request per
contiguous batch of 16 texts, responses concatenated in order. -/
def get_embeddings (embed : List String → List (List ℚ)) (texts : List String) :
    List (List ℚ) :=
  get_embeddings_fuel embed texts.length texts

/-- Fuel-indexed partition of a list into contiguous batches of 16. -/
def toBatches16Fuel : Nat → List String → List (List String)
  | 0, _ => []
  | _ + 1, [] => []
  | fuel + 1, t :: ts => (t :: ts).take 16 :: toBatches16Fuel fuel ((t :: ts).drop 16)

/-- The partition of the input into the contiguous batches of 16 that the
loop sends to the embedding service, one request per batch. -/
def toBatches16 (texts : List String) : List (List String) :=
  toBatches16Fuel texts.length texts

/-- One entry of the `results` list built by `ingest_directory` in
`ingest.py`. -/
structure IngestOutcome where
  file : String
  status : String
  error : Option String
deriving DecidableEq

/-- The body of the per-file loop of `ingest_directory`: `ingest_file` is
modelled as `ingestOne` returning `Except` (an exception or a result); an
exception is caught and recorded as an error entry. -/
def recoverIngest (ingestOne : String → Except String IngestOutcome)
    (f : String) : IngestOutcome :=
  match ingestOne f with
  | .ok r => r
  | .error e => { file := f, status := "error", error := some e }

/-- The per-file loop of `ingest_directory` in `ingest.py`: each file is
ingested in turn, appending either its result or a caught-error entry. -/
def ingest_directory (ingestOne : String → Except String IngestOutcome)
    (files : List String) : List IngestOutcome :=
  files.foldl (fun results f => results ++ [recoverIngest ingestOne f]) []

/-- The `--dir` branch of `main` in `ingest.py`: run `ingest_directory`,
compute `success_count` for the printed summary, and fall through to
`return 0`.  The surrounding `try/except` returns 1 only when an exception
escapes into `main`; `ingest_directory` catches every per-document
exception, so the branch returns 0 no matter how many documents failed. -/
def main_dir_exit (ingestOne : String → Except String IngestOutcome)
    (files : List String) : Nat :=
  if ((ingest_directory ingestOne files).filter
        (fun r => r.status == "success")).length
      ≤ (ingest_directory ingestOne files).length
  then 0 else 0

/-- Input refuting claim C1 (scaled to `chunk_size = 10`, `overlap = 3`):
no sentence terminator anywhere, a space at index 12, so the lookahead
window `[10, 15)` has no terminator and the window `[10, 15)∩[10, 60)` has a
space. -/
def c1Text : List Char := "aaaaaaaaaabb cc".data

/-- A concrete per-file ingestion function for claim C8: fails on
`bad.txt`, succeeds on everything else. -/
def c8BadIngest : String → Except String IngestOutcome :=
  fun f =>
    if f == "bad.txt" then Except.error "boom"
    else Except.ok { file := f, status := "success", error := none }

theorem sliceWindow_length (text : List Char) (pos n : Nat) :
    (sliceWindow text pos n).length ≤ n ∧
      (sliceWindow text pos n).length ≤ text.length - pos := by
  simp only [sliceWindow, List.length_take, List.length_drop]
  omega

theorem firstMatchEndChar_le {slice : List Char} {c : Char} {e : Nat}
    (h : firstMatchEndChar slice c = some e) : e ≤ slice.length := by
  unfold firstMatchEndChar at h
  split at h
  · cases h
    omega
  · cases h

theorem firstMatchEndNN_le {slice : List Char} {e : Nat}
    (h : firstMatchEndNN slice = some e) : e ≤ slice.length := by
  induction slice generalizing e with
  | nil => cases h
  | cons c1 rest ih =>
    cases rest with
    | nil => cases h
    | cons c2 rest2 =>
      unfold firstMatchEndNN at h
      split at h
      · cases h
        simp
      · split at h
        next e2 h2 =>
          cases h
          have := ih h2
          simp only [List.length_cons] at this ⊢
          omega
        next => cases h

/-- `_find_sentence_end` either finds no terminator and returns `position`,
or returns `position + e` with `e` an offset inside the lookahead window. -/
theorem find_sentence_end_cases (text : List Char) (pos : Nat) :
    find_sentence_end text pos = pos ∨
      ∃ e, e ≤ (sliceWindow text pos 100).length ∧
        find_sentence_end text pos = pos + e := by
  unfold find_sentence_end
  split
  next e h => exact Or.inr ⟨e, firstMatchEndChar_le h, rfl⟩
  next =>
    split
    next e h => exact Or.inr ⟨e, firstMatchEndChar_le h, rfl⟩
    next =>
      split
      next e h => exact Or.inr ⟨e, firstMatchEndChar_le h, rfl⟩
      next =>
        split
        next e h => exact Or.inr ⟨e, firstMatchEndNN_le h, rfl⟩
        next => exact Or.inl rfl

theorem find_sentence_end_ge (text : List Char) (pos : Nat) :
    pos ≤ find_sentence_end text pos := by
  rcases find_sentence_end_cases text pos with h | ⟨e, he, h⟩ <;> omega

theorem find_sentence_end_le_add (text : List Char) (pos : Nat) :
    find_sentence_end text pos ≤ pos + 100 := by
  have hw := (sliceWindow_length text pos 100).1
  rcases find_sentence_end_cases text pos with h | ⟨e, he, h⟩ <;> omega

theorem find_sentence_end_le_len (text : List Char) (pos : Nat) (hp : pos ≤ text.length) :
    find_sentence_end text pos ≤ text.length := by
  have hw := (sliceWindow_length text pos 100).2
  rcases find_sentence_end_cases text pos with h | ⟨e, he, h⟩ <;> omega

theorem find_word_end_ge (text : List Char) (pos : Nat) (hp : pos < text.length) :
    pos ≤ find_word_end text pos := by
  unfold find_word_end
  split
  · omega
  split
  all_goals omega

theorem find_word_end_le_len (text : List Char) (pos : Nat) (hp : pos ≤ text.length) :
    find_word_end text pos ≤ text.length := by
  have hw := (sliceWindow_length text pos 50).2
  unfold find_word_end
  split
  · omega
  split
  all_goals omega

theorem find_word_end_le_add (text : List Char) (pos : Nat) :
    find_word_end text pos ≤ pos + 50 := by
  have hw := (sliceWindow_length text pos 50).1
  unfold find_word_end
  split
  · omega
  split
  all_goals omega

/-- Bounds on the boundary chosen by a non-final loop iteration: it lies in
`[e, min(len, e+100)]` where `e = start + chunk_size`. -/
theorem chunkBoundary_bounds (text : List Char) (start e : Nat)
    (he : e < text.length) (hs : start ≤ e) :
    e ≤ chunkBoundary text start e ∧ chunkBoundary text start e ≤ text.length ∧
      chunkBoundary text start e ≤ e + 100 := by
  unfold chunkBoundary
  have h1 := find_sentence_end_ge text e
  have h2 := find_sentence_end_le_len text e (by omega)
  have h3 := find_sentence_end_le_add text e
  split
  · exact ⟨h1, h2, h3⟩
  · have h5 := find_word_end_ge text e he
    have h6 := find_word_end_le_len text e (by omega)
    have h7 := find_word_end_le_add text e
    exact ⟨h5, h6, by omega⟩

/-- With `overlap < chunk_size`, fuel `len - start + 1` is enough for the
chunking loop to exit. -/
theorem chunkLoop_isSome (cs ov : Nat) (text : List Char) (hov : ov < cs) :
    ∀ fuel start, text.length - start < fuel →
      (chunkLoop cs ov text fuel start).isSome := by
  intro fuel
  induction fuel with
  | zero =>
    intro start hfuel
    omega
  | succ fuel ih =>
    intro start hfuel
    unfold chunkLoop
    split
    next h1 =>
      split
      · simp
      next h2 =>
        have hb := chunkBoundary_bounds text start (start + cs) (by omega) (by omega)
        have hih := ih (chunkBoundary text start (start + cs) - ov) (by omega)
        rcases Option.isSome_iff_exists.mp hih with ⟨l, hl⟩
        rw [hl]
        simp
    · simp

/-- A run of the loop that starts strictly inside the text emits at least
one chunk. -/
theorem chunkLoop_ne_nil {cs ov : Nat} {text : List Char} {fuel start : Nat}
    {l : List (List Char)} (hs : start < text.length)
    (h : chunkLoop cs ov text fuel start = some l) : l ≠ [] := by
  cases fuel with
  | zero => simp [chunkLoop] at h
  | succ fuel =>
    unfold chunkLoop at h
    rw [if_pos hs] at h
    split at h
    · cases h
      simp
    · cases hr : chunkLoop cs ov text fuel (chunkBoundary text start (start + cs) - ov) with
      | none => rw [hr] at h; cases h
      | some rest =>
        rw [hr] at h
        cases h
        simp

/-- The first chunk emitted by a run of the loop whose cursor satisfies
`start + overlap ≤ len` has length at least `overlap`. -/
theorem chunkLoop_head_len {cs ov : Nat} {text : List Char} {fuel start : Nat}
    {c : List Char} {r : List (List Char)} (hov : ov < cs)
    (hlen : start + ov ≤ text.length)
    (h : chunkLoop cs ov text fuel start = some (c :: r)) : ov ≤ c.length := by
  cases fuel with
  | zero => simp [chunkLoop] at h
  | succ fuel =>
    unfold chunkLoop at h
    split at h
    next h1 =>
      split at h
      next h2 =>
        have hc : c = text.drop start := by
          injection h with h3
          cases h3
          rfl
        rw [hc]
        simp only [List.length_drop]
        omega
      next h2 =>
        cases hr : chunkLoop cs ov text fuel (chunkBoundary text start (start + cs) - ov) with
        | none => rw [hr] at h; cases h
        | some rest =>
          rw [hr] at h
          have hb := chunkBoundary_bounds text start (start + cs) (by omega) (by omega)
          have hc : c = (text.drop start).take (chunkBoundary text start (start + cs) - start) := by
            injection h with h3
            cases h3
            rfl
          rw [hc]
          simp only [List.length_take, List.length_drop]
          omega
    next h1 => cases h

/-- Invariant of the chunking loop with `0 < overlap < chunk_size`: keeping
the first emitted chunk whole and stripping the leading `overlap` characters
from every later chunk reassembles exactly the text from the cursor on. -/
theorem chunkLoop_reconstruct {cs ov : Nat} {text : List Char} (hov : ov < cs)
    (hov0 : 0 < ov) :
    ∀ fuel start l, chunkLoop cs ov text fuel start = some l →
      reconstruct ov l = text.drop start := by
  intro fuel
  induction fuel with
  | zero =>
    intro start l h
    simp [chunkLoop] at h
  | succ fuel ih =>
    intro start l h
    unfold chunkLoop at h
    split at h
    next h1 =>
      split at h
      next h2 =>
        cases h
        simp only [reconstruct, List.map_nil, List.flatten_nil, List.append_nil]
      next h2 =>
        cases hr : chunkLoop cs ov text fuel (chunkBoundary text start (start + cs) - ov) with
        | none => rw [hr] at h; cases h
        | some rest =>
          rw [hr] at h
          cases h
          have hb := chunkBoundary_bounds text start (start + cs) (by omega) (by omega)
          have hrec := ih _ _ hr
          cases rest with
          | nil =>
            simp only [reconstruct] at hrec
            have hnil := hrec.symm
            rw [List.drop_eq_nil_iff] at hnil
            omega
          | cons c2 r2 =>
            have hclen : ov ≤ c2.length :=
              chunkLoop_head_len hov (by omega) hr
            simp only [reconstruct] at hrec ⊢
            have hdrop := congrArg (List.drop ov) hrec
            rw [List.drop_append_eq_append_drop, Nat.sub_eq_zero_of_le hclen,
              List.drop_zero, List.drop_drop] at hdrop
            have hbeq : chunkBoundary text start (start + cs) - ov + ov
                = chunkBoundary text start (start + cs) := by omega
            rw [hbeq] at hdrop
            rw [List.map_cons, List.flatten_cons, hdrop]
            have h3 : text.drop (chunkBoundary text start (start + cs))
                = (text.drop start).drop (chunkBoundary text start (start + cs) - start) := by
              rw [List.drop_drop]
              congr 1
              omega
            rw [h3, List.take_append_drop]
    next h1 =>
      cases h
      simp only [reconstruct]
      exact (List.drop_eq_nil_of_le (by omega)).symm

/-- Every chunk emitted by the loop other than the final one has length at
most `chunk_size + 100`. -/
theorem chunkLoop_dropLast_len {cs ov : Nat} {text : List Char} :
    ∀ fuel start l, chunkLoop cs ov text fuel start = some l →
      ∀ c ∈ l.dropLast, c.length ≤ cs + 100 := by
  intro fuel
  induction fuel with
  | zero =>
    intro start l h
    simp [chunkLoop] at h
  | succ fuel ih =>
    intro start l h
    unfold chunkLoop at h
    split at h
    next h1 =>
      split at h
      next h2 =>
        cases h
        simp
      next h2 =>
        cases hr : chunkLoop cs ov text fuel (chunkBoundary text start (start + cs) - ov) with
        | none => rw [hr] at h; cases h
        | some rest =>
          rw [hr] at h
          cases h
          have hb := chunkBoundary_bounds text start (start + cs) (by omega) (by omega)
          intro c hc
          cases rest with
          | nil => simp at hc
          | cons c2 r2 =>
            have hdl : (((text.drop start).take (chunkBoundary text start (start + cs) - start))
                :: c2 :: r2).dropLast
                = ((text.drop start).take (chunkBoundary text start (start + cs) - start))
                  :: (c2 :: r2).dropLast := rfl
            rw [hdl] at hc
            rcases List.mem_cons.mp hc with hceq | hmem
            · rw [hceq]
              simp only [List.length_take, List.length_drop]
              omega
            · exact ih _ _ hr c hmem
    next h1 =>
      cases h
      simp

/-- With `0 < chunk_size`, every chunk emitted by the loop is non-empty. -/
theorem chunkLoop_mem_ne_nil {cs ov : Nat} {text : List Char} (hcs : 0 < cs) :
    ∀ fuel start l, chunkLoop cs ov text fuel start = some l →
      ∀ c ∈ l, c ≠ [] := by
  intro fuel
  induction fuel with
  | zero =>
    intro start l h
    simp [chunkLoop] at h
  | succ fuel ih =>
    intro start l h
    unfold chunkLoop at h
    split at h
    next h1 =>
      split at h
      next h2 =>
        cases h
        intro c hc
        rcases List.mem_singleton.mp hc with rfl
        have : 0 < (text.drop start).length := by
          simp only [List.length_drop]
          omega
        exact List.ne_nil_of_length_pos this
      next h2 =>
        cases hr : chunkLoop cs ov text fuel (chunkBoundary text start (start + cs) - ov) with
        | none => rw [hr] at h; cases h
        | some rest =>
          rw [hr] at h
          cases h
          have hb := chunkBoundary_bounds text start (start + cs) (by omega) (by omega)
          intro c hc
          rcases List.mem_cons.mp hc with hceq | hmem
          · rw [hceq]
            have : 0 < ((text.drop start).take (chunkBoundary text start (start + cs) - start)).length := by
              simp only [List.length_take, List.length_drop]
              omega
            exact List.ne_nil_of_length_pos this
          · exact ih _ _ hr c hmem
    next h1 =>
      cases h
      intro c hc
      cases hc

/-- Sanity check of the embedding: boundaries fall one past a sentence
terminator when one occurs in the lookahead window. -/
theorem chunk_sanity_terminator :
    chunkTextWith 3 1 "abc. defg.".data
      = some ["abc.".data, ". defg.".data, ".".data] := by decide

/-- Sanity check of the embedding of the whitespace normalization. -/
theorem normalize_sanity : normalizeText "a\n\n\n\nb  c".data = "a b c".data := by
  decide

/-- C1: the claimed word-boundary fallback is dead code.  On `c1Text` with
`chunk_size = 10`, `overlap = 3`, the cursor reaches `start = 0` with
`end = 10 < 15`; no sentence terminator occurs in the window `[10, 15)`
(`_find_sentence_end` returns `position` itself), and the window does
contain a space (the claimed fallback would compute `word_end = 13` and
emit `text[0:13]`).  Yet the emitted first chunk is `text[0:10]`: because
`_find_sentence_end` returns `end > start` even on failure, the
`sentence_end > start` guard always fires and `_find_word_end` is never
consulted, contradicting the claim (and the source's own comment). -/
theorem C1_fallback_dead :
    find_sentence_end c1Text 10 = 10 ∧
      find_word_end c1Text 10 = 13 ∧
        chunkTextWith 10 3 c1Text = some ["aaaaaaaaaa".data, "aaabb cc".data] := by
  decide

/-- C2: for non-empty text and `chunk_size > overlap > 0`, the chunking
loop terminates and concatenating the chunks with each chunk after the
first stripped of its leading `overlap` characters reconstructs exactly the
whitespace-normalized source text. -/
theorem C2_reconstruction (text : List Char) (cs ov : Nat)
    (h1 : text ≠ []) (h2 : ov < cs) (h3 : 0 < ov) :
    ∃ l, chunkTextWith cs ov text = some l ∧ reconstruct ov l = normalizeText text := by
  unfold chunkTextWith
  rw [if_neg (by simpa using h1)]
  have hs := chunkLoop_isSome cs ov (normalizeText text) h2
    ((normalizeText text).length + 1) 0 (by omega)
  rcases Option.isSome_iff_exists.mp hs with ⟨l, hl⟩
  refine ⟨l, hl, ?_⟩
  have := chunkLoop_reconstruct h2 h3 _ _ _ hl
  simpa using this

/-- Witness for C2 at a concrete input. -/
theorem C2_reconstruction_witness :
    reconstruct 1 ((chunkTextWith 10 1 "hello. world, this is a test.".data).getD [])
      = normalizeText "hello. world, this is a test.".data := by
  obtain ⟨l, hl, hr⟩ := C2_reconstruction "hello. world, this is a test.".data 10 1
    (by decide) (by decide) (by decide)
  rw [hl]
  simpa using hr

/-- C6: every chunk emitted by the chunker except possibly the last has
length at most `chunk_size + 100` (the sentence-terminator lookahead
bound). -/
theorem C6_chunk_length_bound (text : List Char) (cs ov : Nat)
    (l : List (List Char)) (h : chunkTextWith cs ov text = some l) :
    ∀ c ∈ l.dropLast, c.length ≤ cs + 100 := by
  unfold chunkTextWith at h
  split at h
  · cases h
    intro c hc
    simp at hc
  · exact chunkLoop_dropLast_len _ _ _ h

/-- Witness for C6 at a concrete input and a concrete non-final chunk. -/
theorem C6_chunk_length_bound_witness : ("ab.".data).length ≤ 3 + 100 :=
  C6_chunk_length_bound "ab.cdef".data 3 1 ["ab.".data, ".cd".data, "def".data]
    (by decide) "ab.".data (by decide)

/-- C9: chunking the empty string yields the empty chunk sequence, and no
chunk emitted by `_chunk_text` (at the configured `CHUNK_SIZE`,
`CHUNK_OVERLAP`) is ever empty. -/
theorem C9_no_empty_chunks :
    chunk_text [] = some [] ∧
      ∀ text l, chunk_text text = some l → ∀ c ∈ l, c ≠ [] := by
  constructor
  · rfl
  · intro text l h
    unfold chunk_text chunkTextWith at h
    split at h
    · cases h
      intro c hc
      cases hc
    · exact chunkLoop_mem_ne_nil (by decide) _ _ _ h

/-- Witness for C9 at a concrete input and its concrete chunk. -/
theorem C9_no_empty_chunks_witness : "hi there".data ≠ [] :=
  C9_no_empty_chunks.2 "hi there".data ["hi there".data] (by decide)
    "hi there".data (by decide)

/-- C10: with the configured `CHUNK_SIZE = 1000` and `CHUNK_OVERLAP = 200`
the chunking loop terminates on every input (fuel `length + 1` always
suffices), and in every iteration that does not emit the final chunk the
chosen boundary is at least `start + CHUNK_SIZE`, so the cursor advances by
at least `CHUNK_SIZE - CHUNK_OVERLAP`. -/
theorem C10_termination :
    (∀ text : List Char, (chunk_text text).isSome) ∧
      ∀ (t : List Char) (s : Nat), s + CHUNK_SIZE < t.length →
        s + CHUNK_SIZE ≤ chunkBoundary t s (s + CHUNK_SIZE) ∧
          s + (CHUNK_SIZE - CHUNK_OVERLAP) ≤ chunkBoundary t s (s + CHUNK_SIZE) - CHUNK_OVERLAP := by
  constructor
  · intro text
    unfold chunk_text chunkTextWith
    split
    · simp
    · have := chunkLoop_isSome CHUNK_SIZE CHUNK_OVERLAP (normalizeText text)
        (by decide) ((normalizeText text).length + 1) 0 (by omega)
      exact this
  · intro t s h
    have hb := chunkBoundary_bounds t s (s + CHUNK_SIZE) h (by omega)
    simp only [CHUNK_SIZE, CHUNK_OVERLAP] at hb ⊢
    omega

/-- Witness for C10 at a concrete input (a 1001-character text, so the
hypothesis of the advance property is satisfiable). -/
theorem C10_termination_witness :
    (chunk_text "abc".data).isSome ∧
      (0 + CHUNK_SIZE < (List.replicate 1001 'a').length ∧
        0 + CHUNK_SIZE ≤ chunkBoundary (List.replicate 1001 'a') 0 (0 + CHUNK_SIZE) ∧
          0 + (CHUNK_SIZE - CHUNK_OVERLAP)
            ≤ chunkBoundary (List.replicate 1001 'a') 0 (0 + CHUNK_SIZE) - CHUNK_OVERLAP) :=
  ⟨C10_termination.1 "abc".data,
    by decide,
    C10_termination.2 (List.replicate 1001 'a') 0 (by decide)⟩

/-- The append-in-a-loop of `vector_search` is filtering followed by
projection. -/
theorem vector_search_foldl (results : List RawResult) :
    ∀ acc : List SearchResult,
      results.foldl
          (fun acc r =>
            if SIMILARITY_THRESHOLD ≤ r.score then acc ++ [toSearchResult r] else acc)
          acc
        = acc ++ (results.filter
            (fun r => SIMILARITY_THRESHOLD ≤ r.score)).map toSearchResult := by
  induction results with
  | nil =>
    intro acc
    simp
  | cons r rest ih =>
    intro acc
    simp only [List.foldl_cons, List.filter_cons]
    by_cases hr : SIMILARITY_THRESHOLD ≤ r.score
    · rw [if_pos hr, ih]
      simp [hr]
    · rw [if_neg hr, ih]
      simp [hr]

/-- C3: `vector_search` never returns a result whose similarity score is
below `SIMILARITY_THRESHOLD`, and the surviving results are a subsequence
of the ranked stream provided by the index, in the same relative order
(no re-sorting). -/
theorem C3_threshold_and_order (results : List RawResult) :
    (∀ s ∈ vector_search results, SIMILARITY_THRESHOLD ≤ s.score) ∧
      (vector_search results).Sublist (results.map toSearchResult) := by
  have he : vector_search results
      = (results.filter (fun r => SIMILARITY_THRESHOLD ≤ r.score)).map toSearchResult := by
    unfold vector_search
    simpa using vector_search_foldl results []
  constructor
  · intro s hs
    rw [he] at hs
    rcases List.mem_map.mp hs with ⟨r, hrmem, rfl⟩
    have h2 := List.of_mem_filter hrmem
    simp only [decide_eq_true_eq] at h2
    exact h2
  · rw [he]
    exact (List.filter_sublist _).map toSearchResult

/-- C4: with an empty context, `process_query` returns exactly the fixed
fallback answer and an empty sources list, for every query and every
completion service, and the completion service is invoked zero times. -/
theorem C4_empty_context_fallback (complete : List ChatMessage → String) (query : String) :
    process_query complete query []
      = ({ answer := FALLBACK_ANSWER, sources := [] }, 0) := rfl

/-- The per-file loop of `ingest_directory` is a `map` of the recovering
per-file step. -/
theorem ingest_directory_eq_map (ingestOne : String → Except String IngestOutcome)
    (files : List String) :
    ingest_directory ingestOne files = files.map (recoverIngest ingestOne) := by
  unfold ingest_directory
  suffices h : ∀ acc : List IngestOutcome,
      files.foldl (fun results f => results ++ [recoverIngest ingestOne f]) acc
        = acc ++ files.map (recoverIngest ingestOne) by
    simpa using h []
  induction files with
  | nil => intro acc; simp
  | cons f rest ih =>
    intro acc
    simp only [List.foldl_cons, List.map_cons, ih]
    simp

/-- The `--dir` branch of `main` always returns exit code 0 (the
per-document exceptions never reach `main`). -/
theorem main_dir_exit_eq_zero (ingestOne : String → Except String IngestOutcome)
    (files : List String) : main_dir_exit ingestOne files = 0 := by
  unfold main_dir_exit
  exact ite_self 0

/-- C8 counterexample: in a directory batch where `bad.txt` fails, the
failure is recorded and later files are still processed, but the process
exit code is 0 — identical to the exit code of an all-success batch — so
the exit code does not distinguish overall success from a per-document
failure within the batch. -/
theorem C8_exit_code_counterexample :
    ({ file := "bad.txt", status := "error", error := some "boom" } : IngestOutcome)
        ∈ ingest_directory c8BadIngest ["good.txt", "bad.txt", "later.txt"] ∧
      ({ file := "later.txt", status := "success", error := none } : IngestOutcome)
        ∈ ingest_directory c8BadIngest ["good.txt", "bad.txt", "later.txt"] ∧
      main_dir_exit c8BadIngest ["good.txt", "bad.txt", "later.txt"] = 0 ∧
      main_dir_exit c8BadIngest ["good.txt", "later.txt"] = 0 := by
  decide

/-- C8 (amended): a failing document inside a directory batch is caught and
recorded as an error entry, the documents before and after it are processed
exactly as they would be on their own, and the `--dir` branch of `main`
returns exit code 0 regardless of the failure. -/
theorem C8_fail_soft (ingestOne : String → Except String IngestOutcome)
    (files1 files2 : List String) (f e : String) (h : ingestOne f = Except.error e) :
    ingest_directory ingestOne (files1 ++ f :: files2)
        = ingest_directory ingestOne files1
          ++ ({ file := f, status := "error", error := some e } : IngestOutcome)
            :: ingest_directory ingestOne files2 ∧
      main_dir_exit ingestOne (files1 ++ f :: files2) = 0 := by
  constructor
  · rw [ingest_directory_eq_map, ingest_directory_eq_map, ingest_directory_eq_map,
      List.map_append, List.map_cons]
    have hrec : recoverIngest ingestOne f
        = { file := f, status := "error", error := some e } := by
      unfold recoverIngest
      rw [h]
    rw [hrec]
  · exact main_dir_exit_eq_zero _ _

/-- Witness for the amended C8 at a concrete batch. -/
theorem C8_fail_soft_witness :
    ingest_directory c8BadIngest (["good.txt"] ++ "bad.txt" :: ["later.txt"])
        = ingest_directory c8BadIngest ["good.txt"]
          ++ ({ file := "bad.txt", status := "error", error := some "boom" } : IngestOutcome)
            :: ingest_directory c8BadIngest ["later.txt"] ∧
      main_dir_exit c8BadIngest (["good.txt"] ++ "bad.txt" :: ["later.txt"]) = 0 :=
  C8_fail_soft c8BadIngest ["good.txt"] ["later.txt"] "bad.txt" "boom" rfl

theorem specFirstSeenDedupFuel_congr :
    ∀ fuel1 fuel2 l, l.length ≤ fuel1 → l.length ≤ fuel2 →
      specFirstSeenDedupFuel fuel1 l = specFirstSeenDedupFuel fuel2 l := by
  intro fuel1
  induction fuel1 with
  | zero =>
    intro fuel2 l h1 h2
    have hl : l = [] := List.eq_nil_of_length_eq_zero (by omega)
    subst hl
    cases fuel2 <;> rfl
  | succ fuel1 ih =>
    intro fuel2 l h1 h2
    cases l with
    | nil => cases fuel2 <;> rfl
    | cons a tl =>
      cases fuel2 with
      | zero => simp at h2
      | succ fuel2 =>
        simp only [specFirstSeenDedupFuel, List.cons.injEq, true_and]
        apply ih
        · have hf := List.length_filter_le (fun b => b ≠ a) tl
          simp only [List.length_cons] at h1
          omega
        · have hf := List.length_filter_le (fun b => b ≠ a) tl
          simp only [List.length_cons] at h2
          omega

theorem specFirstSeenDedup_nil : specFirstSeenDedup [] = [] := rfl

theorem specFirstSeenDedup_cons (a : String) (l : List String) :
    specFirstSeenDedup (a :: l)
      = a :: specFirstSeenDedup (l.filter (fun b => b ≠ a)) := by
  unfold specFirstSeenDedup
  simp only [List.length_cons, specFirstSeenDedupFuel, List.cons.injEq, true_and]
  exact specFirstSeenDedupFuel_congr _ _ _
    (le_trans (List.length_filter_le _ _) (by omega)) le_rfl

theorem specFirstSeenDedupFuel_mem :
    ∀ fuel l (x : String), x ∈ specFirstSeenDedupFuel fuel l → x ∈ l := by
  intro fuel
  induction fuel with
  | zero =>
    intro l x h
    simp [specFirstSeenDedupFuel] at h
  | succ fuel ih =>
    intro l x h
    cases l with
    | nil => simp [specFirstSeenDedupFuel] at h
    | cons a tl =>
      simp only [specFirstSeenDedupFuel] at h
      rcases List.mem_cons.mp h with rfl | hmem
      · exact List.mem_cons_self _ _
      · exact List.mem_cons_of_mem _ (List.mem_of_mem_filter (ih _ _ hmem))

theorem specFirstSeenDedupFuel_nodup :
    ∀ fuel l, (specFirstSeenDedupFuel fuel l).Nodup := by
  intro fuel
  induction fuel with
  | zero =>
    intro l
    simp [specFirstSeenDedupFuel]
  | succ fuel ih =>
    intro l
    cases l with
    | nil => simp [specFirstSeenDedupFuel]
    | cons a tl =>
      simp only [specFirstSeenDedupFuel]
      refine List.nodup_cons.mpr ⟨?_, ih _⟩
      intro hmem
      have h2 := List.of_mem_filter (specFirstSeenDedupFuel_mem _ _ _ hmem)
      simp at h2

theorem specFirstSeenDedup_nodup (l : List String) : (specFirstSeenDedup l).Nodup :=
  specFirstSeenDedupFuel_nodup _ _

/-- The membership-guarded append loop of `dedupSources`, run from an
arbitrary accumulator, appends exactly the first-seen-order deduplication
of the source names not already present in the accumulator. -/
theorem dedupSources_foldl (ctx : List SearchResult) :
    ∀ acc : List SourceRef,
      (ctx.foldl
          (fun sources item =>
            if item.source ∈ sources.map SourceRef.source then sources
            else sources ++ [⟨item.source, item.path⟩])
          acc).map SourceRef.source
        = acc.map SourceRef.source
          ++ specFirstSeenDedup ((ctx.map SearchResult.source).filter
              (fun s => s ∉ acc.map SourceRef.source)) := by
  induction ctx with
  | nil =>
    intro acc
    simp [specFirstSeenDedup_nil]
  | cons item rest ih =>
    intro acc
    simp only [List.foldl_cons, List.map_cons, List.filter_cons]
    by_cases hmem : item.source ∈ acc.map SourceRef.source
    · rw [if_pos hmem, ih]
      simp [hmem]
    · rw [if_neg hmem, ih]
      have hmap : (acc ++ [(⟨item.source, item.path⟩ : SourceRef)]).map SourceRef.source
          = acc.map SourceRef.source ++ [item.source] := by simp
      rw [hmap]
      rw [if_pos (by simp [hmem])]
      rw [specFirstSeenDedup_cons, List.append_assoc, List.singleton_append]
      have hfilter : (rest.map SearchResult.source).filter
            (fun s => s ∉ acc.map SourceRef.source ++ [item.source])
          = ((rest.map SearchResult.source).filter
              (fun s => s ∉ acc.map SourceRef.source)).filter
            (fun b => b ≠ item.source) := by
        rw [List.filter_filter]
        apply List.filter_congr
        intro x hx
        simp only [List.mem_append, List.mem_singleton, decide_not]
        rcases Decidable.em (x ∈ acc.map SourceRef.source) with hx1 | hx1 <;>
          rcases Decidable.em (x = item.source) with hx2 | hx2 <;>
            simp [hx1, hx2]
      rw [hfilter]

/-- C5: for a non-empty context, the source-name projection of
`Answer.sources` built by `generate_answer` is exactly the first-seen-order
deduplication of the context's source names — each distinct source name
once, ordered by first appearance — and in particular contains no
duplicates. -/
theorem C5_sources_first_seen_dedup (context : List SearchResult)
    (hc : context ≠ []) :
    (dedupSources context).map SourceRef.source
        = specFirstSeenDedup (context.map SearchResult.source) ∧
      ((dedupSources context).map SourceRef.source).Nodup := by
  have he : (dedupSources context).map SourceRef.source
      = specFirstSeenDedup (context.map SearchResult.source) := by
    have h := dedupSources_foldl context []
    unfold dedupSources
    simpa using h
  exact ⟨he, he ▸ specFirstSeenDedup_nodup _⟩

/-- Witness for C5: two chunks share the source name `A`; it appears once,
in first-seen position. -/
theorem C5_sources_first_seen_dedup_witness :
    (dedupSources
          [⟨"1", "t1", "A", "p1", "d", 1⟩, ⟨"2", "t2", "B", "p2", "d", 1⟩,
            ⟨"3", "t3", "A", "p3", "d", 1⟩]).map SourceRef.source
        = specFirstSeenDedup
            (([⟨"1", "t1", "A", "p1", "d", 1⟩, ⟨"2", "t2", "B", "p2", "d", 1⟩,
              ⟨"3", "t3", "A", "p3", "d", 1⟩] : List SearchResult).map SearchResult.source) ∧
      ((dedupSources
          [⟨"1", "t1", "A", "p1", "d", 1⟩, ⟨"2", "t2", "B", "p2", "d", 1⟩,
            ⟨"3", "t3", "A", "p3", "d", 1⟩]).map SourceRef.source).Nodup :=
  C5_sources_first_seen_dedup
    [⟨"1", "t1", "A", "p1", "d", 1⟩, ⟨"2", "t2", "B", "p2", "d", 1⟩,
      ⟨"3", "t3", "A", "p3", "d", 1⟩] (by decide)

theorem get_embeddings_fuel_length (embed : List String → List (List ℚ))
    (hlen : ∀ b, (embed b).length = b.length) :
    ∀ fuel texts, texts.length ≤ fuel →
      (get_embeddings_fuel embed fuel texts).length = texts.length := by
  intro fuel
  induction fuel with
  | zero =>
    intro texts h
    have ht : texts = [] := List.eq_nil_of_length_eq_zero (by omega)
    subst ht
    rfl
  | succ fuel ih =>
    intro texts h
    cases texts with
    | nil => rfl
    | cons t ts =>
      simp only [get_embeddings_fuel, List.length_append, hlen]
      rw [ih ((t :: ts).drop 16)
        (by simp only [List.length_drop, List.length_cons]
            simp only [List.length_cons] at h
            omega)]
      simp only [List.length_take, List.length_drop, List.length_cons]
      omega

theorem get_embeddings_fuel_batches (embed : List String → List (List ℚ)) :
    ∀ fuel texts, get_embeddings_fuel embed fuel texts
      = ((toBatches16Fuel fuel texts).map embed).flatten := by
  intro fuel
  induction fuel with
  | zero =>
    intro texts
    rfl
  | succ fuel ih =>
    intro texts
    cases texts with
    | nil => rfl
    | cons t ts =>
      simp only [get_embeddings_fuel, toBatches16Fuel, List.map_cons, List.flatten_cons]
      rw [ih]

theorem get_embeddings_fuel_map (f : String → List ℚ) :
    ∀ fuel texts, texts.length ≤ fuel →
      get_embeddings_fuel (fun b => b.map f) fuel texts = texts.map f := by
  intro fuel
  induction fuel with
  | zero =>
    intro texts h
    have ht : texts = [] := List.eq_nil_of_length_eq_zero (by omega)
    subst ht
    rfl
  | succ fuel ih =>
    intro texts h
    cases texts with
    | nil => rfl
    | cons t ts =>
      simp only [get_embeddings_fuel]
      rw [ih ((t :: ts).drop 16)
        (by simp only [List.length_drop, List.length_cons]
            simp only [List.length_cons] at h
            omega)]
      rw [← List.map_append, List.take_append_drop]

/-- C7: assuming the embedding service's same-length contract per request,
`_get_embeddings` issues one request per contiguous batch of 16 input texts
(concatenating the responses), returns as many vectors as input texts, and
is positionally faithful: for a pointwise service the i-th output vector is
the embedding of the i-th input text (this covers single-element lists). -/
theorem C7_embedding_batching (embed : List String → List (List ℚ))
    (texts : List String) (hlen : ∀ b, (embed b).length = b.length) :
    (get_embeddings embed texts).length = texts.length ∧
      get_embeddings embed texts = ((toBatches16 texts).map embed).flatten ∧
      ∀ f : String → List ℚ,
        get_embeddings (fun b => b.map f) texts = texts.map f :=
  ⟨get_embeddings_fuel_length embed hlen texts.length texts le_rfl,
    get_embeddings_fuel_batches embed texts.length texts,
    fun f => get_embeddings_fuel_map f texts.length texts le_rfl⟩

/-- Witness for C7 at a concrete service (each text mapped to the
one-dimensional vector of its length) and a concrete input list. -/
theorem C7_embedding_batching_witness :
    (get_embeddings (fun b => b.map (fun s => [(s.length : ℚ)])) ["a", "bb", "ccc"]).length
        = (["a", "bb", "ccc"] : List String).length ∧
      get_embeddings (fun b => b.map (fun s => [(s.length : ℚ)])) ["a", "bb", "ccc"]
        = ((toBatches16 ["a", "bb", "ccc"]).map
            (fun b => b.map (fun s => [(s.length : ℚ)]))).flatten ∧
      get_embeddings (fun b => b.map (fun s => [(s.length : ℚ)])) ["a", "bb", "ccc"]
        = (["a", "bb", "ccc"] : List String).map (fun s => [(s.length : ℚ)]) := by
  obtain ⟨h1, h2, h3⟩ :=
    C7_embedding_batching (fun b => b.map (fun s => [(s.length : ℚ)])) ["a", "bb", "ccc"]
      (by intro b; simp)
  exact ⟨h1, h2, h3 (fun s => [(s.length : ℚ)])⟩

end VKS
